import Mathlib

/-!
Shallow embedding of the sharded LRU cache (package `lru`):
`src/sharded/lru/lru.go`, `src/sharded/lru/options.go` and the shard
implementation (`shard.go`, provided unnamed).

Conventions of the embedding:
* Go `interface{}` keys are modelled by the inductive `GoKey`, covering the
  arms of the type switch in `LRU.shard` that the development needs:
  `[]byte`, `string` (represented by its UTF-8 bytes; `h.Write([]byte(v))`
  hashes exactly those bytes), `int` (64-bit platform, `strconv.IntSize = 64`),
  and an `unsupported` arm standing for any dynamic type the gob fallback
  cannot encode (e.g. a value containing a function or channel).  The
  remaining fast-path arms (byter, stringer, fixed-width scalars) hash other
  deterministic byte encodings and add nothing to the claims.
* A Go panic is modelled as the `none` / failure branch of an `Option`
  result: `LRU.Get`, `LRU.Add`, `LRU.Remove`, ... return `none` exactly when
  the Go call panics (gob encoding failure, or indexing a nil / too-short
  shard slice), and `some` of the Go result otherwise.
* `container/list` plus the `idx` map of element pointers are modelled by a
  list `order` (front = most recently used) together with the key set `idx`
  of the map.  The map stores a pointer to the unique live list element for
  its key (the code inserts and deletes the two together), so dereferencing
  `idx[k]` is modelled by `order.find?` on the key; the branches below marked
  "unreachable" correspond to a dangling map entry, which the code never
  creates.
* Machine integers (`int`, `int32`, `uint32`) are modelled as `Int`/`Nat`
  with explicit two's-complement reductions (`% 2^32`, `% 2^64`) where Go
  converts or truncates.  Go's `/` on int is truncating division, `Int.tdiv`.
-/

namespace LruSpec

/-- Keys of the cache: the arms of the type switch in `LRU.shard`. -/
inductive GoKey where
  /-- a `[]byte` key (each byte reduced mod 256 when hashed) -/
  | bytes (bs : List Nat)
  /-- a `string` key, given by its UTF-8 bytes -/
  | str (bs : List Nat)
  /-- an `int` key (64-bit) -/
  | int (i : Int)
  /-- a key of a dynamic type the gob fallback cannot encode -/
  | unsupported (tag : Nat)
deriving DecidableEq, Repr

/-- FNV-1a, 32 bit (`hash/fnv`, `fnv.New32a`): offset basis 2166136261,
prime 16777619, per byte `h = (h XOR b) * prime mod 2^32`. -/
def fnv1a32 (bs : List Nat) : Nat :=
  bs.foldl (fun h b => ((h ^^^ b) * 16777619) % 4294967296) 2166136261

/-- `il = strconv.IntSize / 8` on a 64-bit platform. -/
def il : Nat := 8

/-- `intBytes`: the 8 little-endian bytes of the two's-complement pattern of
an `int` (`byte(i)`, `byte(i >> 8)`, ..., `byte(i >> 56)`). -/
def intBytes (i : Int) : List Nat :=
  let u : Nat := (i % 18446744073709551616).toNat
  (List.range il).map (fun j => u / 2 ^ (8 * j) % 256)

/-- The byte encoding a key feeds to the hash in `LRU.shard`; `none` models
the gob fallback failing (the `panic` in the `default:` arm), in which case
nothing is ever written to the hash. -/
def encodeKey : GoKey → Option (List Nat)
  | .bytes bs => some (bs.map (· % 256))
  | .str bs => some (bs.map (· % 256))
  | .int i => some (intBytes i)
  | .unsupported _ => none

/-- Go conversion `uint32(n)` of an `int`: the low 32 bits of the
two's-complement pattern. -/
def uint32ofInt (n : Int) : Nat := (n % 4294967296).toNat

/-- The shard index `LRU.shard` computes: `h.Sum32() & uint32(nshards-1)`;
`none` when the key's encoding panics. -/
def shardIdx (nshards : Int) (k : GoKey) : Option Nat :=
  (encodeKey k).map (fun bs => fnv1a32 bs &&& uint32ofInt (nshards - 1))

/-- A shard: local capacity, the atomically tracked `len` counter, the key
set `idx` of the index map, and the recency list `order`
(front = most recently used). -/
structure Shard (V : Type) where
  cap : Int
  len : Int
  idx : List GoKey
  order : List (GoKey × V)
deriving DecidableEq, Repr

/-- The predicate used to locate the list element the map points at for a
key (pointer dereference resolved through the list). -/
def keyEq {V : Type} (k : GoKey) : GoKey × V → Bool := fun e => decide (e.1 = k)

/-- `newShard(cap)`. -/
def newShard {V : Type} (cap : Int) : Shard V :=
  { cap := cap, len := 0, idx := [], order := [] }

/-- `shard.removeElement(le)`: unlink the element from the list, delete its
key from the index, decrement the counter. -/
def Shard.removeElement {V : Type} (s : Shard V) (e : GoKey × V) : Shard V :=
  { s with order := s.order.eraseP (keyEq e.1),
           idx := s.idx.erase e.1,
           len := s.len - 1 }

/-- `shard.removeOldest()`: remove the back (least recently used) element,
if any. -/
def Shard.removeOldest {V : Type} (s : Shard V) : Shard V :=
  match s.order.getLast? with
  | none => s
  | some e => s.removeElement e

/-- `shard.add(k, v)`: on a hit, set the element's value and move it to the
front (jointly: the entry `(k, v)` replaces the old element at the front);
on a miss, push a new entry at the front, register the key, bump the
counter, and evict the back element when the capacity is positive and
exceeded. -/
def Shard.add {V : Type} [DecidableEq V] (s : Shard V) (k : GoKey) (v : V) : Shard V :=
  if k ∈ s.idx then
    { s with order := (k, v) :: s.order.eraseP (keyEq k) }
  else
    let s1 : Shard V :=
      { s with idx := k :: s.idx, order := (k, v) :: s.order, len := s.len + 1 }
    if s1.cap > 0 ∧ s1.len > s1.cap then s1.removeOldest else s1

/-- `shard.get(k)`: on a hit, move the element to the front and return its
value with `true`; on a miss, return the zero value (`none`) with `false`. -/
def Shard.get {V : Type} [DecidableEq V] (s : Shard V) (k : GoKey) :
    (Option V × Bool) × Shard V :=
  if k ∈ s.idx then
    match s.order.find? (keyEq k) with
    | some e => ((some e.2, true), { s with order := e :: s.order.eraseP (keyEq k) })
    | none => ((none, false), s)  -- unreachable: a map entry with no list element
  else ((none, false), s)

/-- `shard.removeKey(k)`: remove the element the map points at, if the key
is present; otherwise do nothing. -/
def Shard.removeKey {V : Type} [DecidableEq V] (s : Shard V) (k : GoKey) : Shard V :=
  if k ∈ s.idx then
    match s.order.find? (keyEq k) with
    | some e => s.removeElement e
    | none => s  -- unreachable: a map entry with no list element
  else s

/-- `shard.front()`: the front entry, or `nil, nil` (here `none`) when the
shard is empty. -/
def Shard.front {V : Type} (s : Shard V) : Option (GoKey × V) :=
  if s.len = 0 then none else s.order.head?

/-- `shard.Len()`. -/
def Shard.length {V : Type} (s : Shard V) : Int := s.len

/-- The consistency invariant the shard maintains (spec section 3): the map's
key set and the list's keys coincide, keys are not duplicated, and the
atomic counter equals the list length. -/
def Shard.WF {V : Type} (s : Shard V) : Prop :=
  s.idx.Perm (s.order.map Prod.fst) ∧
  (s.order.map Prod.fst).Nodup ∧
  s.len = s.order.length

instance {V : Type} [DecidableEq V] (s : Shard V) : Decidable s.WF := by
  unfold Shard.WF; infer_instance

/-- The top-level cache.  `shards = none` models a nil shard slice (the Go
zero value); `New` and `lazyInit` always install a non-nil slice. -/
structure LRU (V : Type) where
  cap : Int
  nshards : Int
  shards : Option (List (Shard V))
deriving DecidableEq, Repr

/-- `New(opts...)`: the options only set `cap` and `nshards`, so they are
taken as parameters; `nshards` is clamped to a minimum of 1, and every shard
receives local capacity `cap / nshards` (Go `/` on int: truncating
division). -/
def LRU.new {V : Type} (cap nshards : Int) : LRU V :=
  let ns := if nshards < 1 then 1 else nshards
  let c := Int.tdiv cap ns
  { cap := cap, nshards := ns, shards := some (List.replicate ns.toNat (newShard c)) }

/-- `LRU.lazyInit`: when the shard slice is nil, install one shard with the
cache's capacity. -/
def LRU.lazyInit {V : Type} (l : LRU V) : LRU V :=
  match l.shards with
  | none => { l with nshards := 1, shards := some [newShard l.cap] }
  | some _ => l

/-- `LRU.Add(k, v)`: lazy-init, route, delegate to the shard.  `none` models
the panic when the encoding fails. -/
def LRU.Add {V : Type} [DecidableEq V] (l : LRU V) (k : GoKey) (v : V) : Option (LRU V) :=
  let l1 := l.lazyInit
  match shardIdx l1.nshards k, l1.shards with
  | some i, some ss =>
      if h : i < ss.length then
        some { l1 with shards := some (ss.set i ((ss.get ⟨i, h⟩).add k v)) }
      else none  -- index out of range
  | _, _ => none

/-- `LRU.Get(k)` — note: the source does NOT call `lazyInit` here, it goes
straight to `l.shard(key).get(key)`.  `none` models the panic (encoding
failure, or shard lookup on a nil / too-short slice). -/
def LRU.Get {V : Type} [DecidableEq V] (l : LRU V) (k : GoKey) :
    Option ((Option V × Bool) × LRU V) :=
  match shardIdx l.nshards k, l.shards with
  | some i, some ss =>
      if h : i < ss.length then
        let r := (ss.get ⟨i, h⟩).get k
        some (r.1, { l with shards := some (ss.set i r.2) })
      else none
  | _, _ => none

/-- `LRU.Remove(k)` — the source does NOT call `lazyInit` here either. -/
def LRU.Remove {V : Type} [DecidableEq V] (l : LRU V) (k : GoKey) : Option (LRU V) :=
  match shardIdx l.nshards k, l.shards with
  | some i, some ss =>
      if h : i < ss.length then
        some { l with shards := some (ss.set i ((ss.get ⟨i, h⟩).removeKey k)) }
      else none
  | _, _ => none

/-- `LRU.Len()`: lazy-init, then sum `shards[i].Len()` for `i < nshards`;
`none` models the out-of-range panic of an inconsistent state. -/
def LRU.Len {V : Type} (l : LRU V) : Option Int :=
  let l1 := l.lazyInit
  match l1.shards with
  | some ss =>
      if l1.nshards.toNat ≤ ss.length then
        some (((ss.take l1.nshards.toNat).map Shard.len).sum)
      else none
  | none => none

/-- `LRU.PeekFront()`: lazy-init, then the front of the shard selected by the
constant sentinel key `1` (an `int`). -/
def LRU.PeekFront {V : Type} [DecidableEq V] (l : LRU V) : Option (Option (GoKey × V)) :=
  let l1 := l.lazyInit
  match shardIdx l1.nshards (.int 1), l1.shards with
  | some i, some ss => if h : i < ss.length then some ((ss.get ⟨i, h⟩).front) else none
  | _, _ => none

/-- The inner loop of `Traverse`, walking a shard's list from the front and
collecting the entries `fn` is called on.  The element on which `fn` returns
false is included — `fn` ran on it.  Both ways out of this loop
(`le == nil`, and `fn` returning false) are the labelled `break L` that
terminates the loop over the shards as well. -/
def visitFront {V : Type} (fn : GoKey → V → Bool) : List (GoKey × V) → List (GoKey × V)
  | [] => []
  | e :: rest => if fn e.1 e.2 then e :: visitFront fn rest else [e]

/-- The loop of `LRU.Traverse` over the shard slice.  Because every exit of
the inner loop is the labelled `break L`, control never reaches the shards
after the first one. -/
def traverseShards {V : Type} (fn : GoKey → V → Bool) : List (Shard V) → List (GoKey × V)
  | [] => []
  | s :: _ => visitFront fn s.order

/-- `LRU.Traverse(fn)`, returning the sequence of entries `fn` is called on
(ranging over a nil slice visits nothing). -/
def LRU.Traverse {V : Type} (l : LRU V) (fn : GoKey → V → Bool) : List (GoKey × V) :=
  match l.shards with
  | none => []
  | some ss => traverseShards fn ss

/-- The loop of `LRU.TraverseReverse`: identical, but each shard's list is
walked from the back (`Back()` / `Prev()`). -/
def traverseShardsRev {V : Type} (fn : GoKey → V → Bool) : List (Shard V) → List (GoKey × V)
  | [] => []
  | s :: _ => visitFront fn s.order.reverse

/-- `LRU.TraverseReverse(fn)`. -/
def LRU.TraverseReverse {V : Type} (l : LRU V) (fn : GoKey → V → Bool) :
    List (GoKey × V) :=
  match l.shards with
  | none => []
  | some ss => traverseShardsRev fn ss

/-- Observer: the recency list of shard `i` (empty when out of range or the
slice is nil). -/
def LRU.shardOrder {V : Type} (l : LRU V) (i : Nat) : List (GoKey × V) :=
  match l.shards with
  | some ss => ((ss[i]?).map Shard.order).getD []
  | none => []

/-- Observer: the index key set of shard `i`. -/
def LRU.shardKeys {V : Type} (l : LRU V) (i : Nat) : List GoKey :=
  match l.shards with
  | some ss => ((ss[i]?).map Shard.idx).getD []
  | none => []

/-- The Go zero value of the `LRU` struct: no capacity, no shard count, a
nil shard slice. -/
def lruZeroValue : LRU Int := { cap := 0, nshards := 0, shards := none }

/-- A concrete full one-entry shard of capacity 1, used to exercise the
eviction path. -/
def shardFull : Shard Int :=
  { cap := 1, len := 1, idx := [.int 0], order := [(.int 0, 5)] }

/-- A concrete single-shard cache holding the key `[]byte{}` (which routes
to shard 0), used to exercise the hit paths. -/
def lruOne : LRU Int :=
  { cap := 0, nshards := 1,
    shards := some [{ cap := 0, len := 1, idx := [.bytes []], order := [(.bytes [], 7)] }] }

/-! ## Helper lemmas -/

/-- A list is a permutation of an element `find?` locates consed onto the
`eraseP` remainder. -/
theorem perm_cons_eraseP_of_find? {α : Type} (p : α → Bool) :
    ∀ (l : List α) (a : α), l.find? p = some a → l.Perm (a :: l.eraseP p)
  | [], a, h => by simp at h
  | x :: t, a, h => by
    by_cases hx : p x
    · rw [List.find?_cons_of_pos _ hx] at h
      cases h
      rw [List.eraseP_cons_of_pos hx]
    · rw [List.find?_cons_of_neg _ hx] at h
      rw [List.eraseP_cons_of_neg hx]
      exact ((perm_cons_eraseP_of_find? p t a h).cons x).trans (List.Perm.swap a x _)

/-- With pairwise-distinct keys, erasing by the key of the last entry drops
exactly the last entry. -/
theorem eraseP_keyEq_getLast {V : Type} :
    ∀ (l : List (GoKey × V)) (e : GoKey × V),
      (l.map Prod.fst).Nodup → l.getLast? = some e →
      l.eraseP (keyEq e.1) = l.dropLast
  | [], e, _, h => by simp at h
  | [x], e, _, h => by
    simp only [List.getLast?_singleton, Option.some.injEq] at h
    subst h
    simp [keyEq]
  | x :: y :: t, e, hnd, h => by
    rw [List.getLast?_cons_cons] at h
    have hmem : e ∈ y :: t := by
      have hne : (y :: t) ≠ [] := List.cons_ne_nil _ _
      rw [List.getLast?_eq_getLast _ hne] at h
      cases h
      exact List.getLast_mem hne
    have hnd' : x.1 ∉ ((y :: t).map Prod.fst) ∧ ((y :: t).map Prod.fst).Nodup := by
      rw [List.map_cons] at hnd
      exact List.nodup_cons.mp hnd
    have hxe : x.1 ≠ e.1 := by
      intro hcontra
      exact hnd'.1 (by rw [hcontra]; exact List.mem_map_of_mem Prod.fst hmem)
    rw [List.eraseP_cons_of_neg (by simp [keyEq, hxe])]
    rw [eraseP_keyEq_getLast (y :: t) e hnd'.2 h]
    rfl

/-- With pairwise-distinct keys, after erasing by key `k` the key `k` no
longer occurs among the keys. -/
theorem not_mem_map_fst_eraseP_keyEq {V : Type} (k : GoKey) :
    ∀ (l : List (GoKey × V)), (l.map Prod.fst).Nodup →
      k ∉ (l.eraseP (keyEq k)).map Prod.fst
  | [], _ => by simp
  | x :: t, hnd => by
    by_cases hx : x.1 = k
    · rw [List.eraseP_cons_of_pos (by simp [keyEq, hx])]
      subst hx
      exact (List.nodup_cons.mp (by simpa using hnd)).1
    · rw [List.eraseP_cons_of_neg (by simp [keyEq, hx])]
      intro hmem
      rcases List.mem_map.mp hmem with ⟨e, he, hek⟩
      rcases List.mem_cons.mp he with rfl | he'
      · exact hx hek
      · exact not_mem_map_fst_eraseP_keyEq k t
          (List.nodup_cons.mp (by simpa using hnd)).2
          (List.mem_map.mpr ⟨e, he', hek⟩)

/-- Sum of an integer measure over a list with one position replaced. -/
theorem sum_map_set {α : Type} (f : α → Int) :
    ∀ (l : List α) (i : Nat) (a : α) (h : i < l.length),
      ((l.set i a).map f).sum = (l.map f).sum - f (l.get ⟨i, h⟩) + f a
  | x :: t, 0, a, _ => by simp [List.set]; ring
  | x :: t, i + 1, a, h => by
    simp only [List.set, List.map, List.sum_cons, List.get_cons_succ]
    rw [sum_map_set f t i a (by simpa using Nat.lt_of_succ_lt_succ h)]
    ring

/-- Replacing a position by its own content is the identity. -/
theorem set_get_self {α : Type} :
    ∀ (l : List α) (i : Nat) (h : i < l.length), l.set i (l.get ⟨i, h⟩) = l
  | _ :: _, 0, _ => rfl
  | x :: t, i + 1, h => by
    simp only [List.set, List.get_cons_succ]
    rw [set_get_self t i (Nat.lt_of_succ_lt_succ h)]

/-- `lazyInit` does nothing on a cache whose shard slice is not nil. -/
theorem lazyInit_eq_self {V : Type} {l : LRU V} {ss : List (Shard V)}
    (h : l.shards = some ss) : l.lazyInit = l := by
  unfold LRU.lazyInit
  split
  · next heq => rw [heq] at h; cases h
  · rfl

/-- Writing back the very shard slice a cache already holds is the
identity. -/
theorem lru_eta {V : Type} (l : LRU V) {x : Option (List (Shard V))}
    (h : l.shards = x) : { l with shards := x } = l := by
  cases l
  cases h
  rfl

/-! ## Claims -/

/-- C1: the claim says `Traverse` iterates all shards in index order,
stopping across shards only when the visit function returns false, so with
an always-true visit function every entry of every shard is visited.  The
code violates this: in `LRU.Traverse` (and `TraverseReverse`) the inner
loop's `le == nil` exit is the labelled `break L`, which terminates the
loop over the shards, so only the first shard is ever visited.  Here a
2-shard cache holds two entries (`[]byte{1}` routes to shard 0, `[]byte{0}`
to shard 1, `Len = 2`), yet `Traverse`/`TraverseReverse` with the
always-true function report a single entry, shard 0's. -/
theorem c1_traverse_stops_after_first_shard :
    ((((LRU.new 0 2 : LRU Int).Add (.bytes [1]) 10).bind
        (fun l => l.Add (.bytes [0]) 11)).map
      (fun l => (l.Traverse (fun _ _ => true),
                 l.TraverseReverse (fun _ _ => true), l.Len))) =
    some ([(.bytes [1], 10)], [(.bytes [1], 10)], some 2) := by decide

/-- C2: the claim says every public operation on a zero-valued, never
constructed cache behaves like a one-shard unbounded cache, and in
particular `Get` and `Remove` complete normally.  The code violates this:
unlike `Add`/`Len`/`PeekFront`, `LRU.Get` and `LRU.Remove` never call
`lazyInit`, so on the zero value (`nshards = 0`, nil shard slice) `l.shard`
indexes the nil slice and panics (modelled by `none`).  On the explicitly
constructed one-shard unbounded cache the same calls complete normally, and
the operations that do lazy-init (`Add`, `Len`, `PeekFront`, `Traverse`)
agree between the two caches. -/
theorem c2_zero_value_get_remove_panic :
    lruZeroValue.Get (.bytes []) = none ∧
    lruZeroValue.Remove (.bytes []) = none ∧
    (LRU.new 0 1 : LRU Int).Get (.bytes []) = some ((none, false), LRU.new 0 1) ∧
    (LRU.new 0 1 : LRU Int).Remove (.bytes []) = some (LRU.new 0 1) ∧
    lruZeroValue.Add (.bytes []) 3 = (LRU.new 0 1 : LRU Int).Add (.bytes []) 3 ∧
    lruZeroValue.Len = (LRU.new 0 1 : LRU Int).Len ∧
    lruZeroValue.PeekFront = (LRU.new 0 1 : LRU Int).PeekFront ∧
    lruZeroValue.Traverse (fun _ _ => true) =
      (LRU.new 0 1 : LRU Int).Traverse (fun _ _ => true) := by decide

/-- C4: when the generic fallback encoding of a key fails (the gob
`default:` arm), the failure propagates to the caller of that call —
modelled as the `none` result standing for the panic — and no shard index
is ever computed from an empty or zero encoding in its place:
`shardIdx` yields no index at all for such a key, and `Get`, `Add` and
`Remove` on it all fail rather than touching any shard. -/
theorem c4_encoding_failure_propagates {V : Type} [DecidableEq V]
    (l : LRU V) (k : GoKey) (v : V) (henc : encodeKey k = none) :
    shardIdx l.nshards k = none ∧
    (∀ bs : List Nat, shardIdx l.nshards k ≠ some (fnv1a32 bs &&& uint32ofInt (l.nshards - 1))) ∧
    l.Get k = none ∧
    l.Add k v = none ∧
    l.Remove k = none := by
  have hidx : ∀ m : Int, shardIdx m k = none := by
    intro m
    unfold shardIdx
    rw [henc]
    rfl
  refine ⟨hidx _, ?_, ?_, ?_, ?_⟩
  · intro bs
    rw [hidx]
    exact fun h => Option.noConfusion h
  · unfold LRU.Get
    split
    · rename_i i ss h1 h2
      rw [hidx] at h1
      cases h1
    · rfl
  · unfold LRU.Add
    dsimp only
    split
    · rename_i i ss h1 h2
      rw [hidx] at h1
      cases h1
    · rfl
  · unfold LRU.Remove
    split
    · rename_i i ss h1 h2
      rw [hidx] at h1
      cases h1
    · rfl

/-- C4 witness: a concrete unsupported key on a concrete cache. -/
theorem c4_encoding_failure_propagates_witness :
    (LRU.new 8 4 : LRU Int).Get (.unsupported 0) = none :=
  (c4_encoding_failure_propagates (LRU.new 8 4 : LRU Int) (.unsupported 0) 3 rfl).2.2.1

/-- C9: the shard router is deterministic: the index it selects is a
function of the key's value (through the key's byte encoding) and of the
cache's shard count alone, so two calls on equal keys against the same
cache select the same shard. -/
theorem c9_router_deterministic {V : Type} (l : LRU V) (k₁ k₂ : GoKey)
    (hk : k₁ = k₂) :
    encodeKey k₁ = encodeKey k₂ ∧
    shardIdx l.nshards k₁ = shardIdx l.nshards k₂ := by
  rw [hk]
  exact ⟨rfl, rfl⟩

/-- C9 witness: two equal concrete keys route identically on a concrete
cache. -/
theorem c9_router_deterministic_witness :
    shardIdx (LRU.new 8 4 : LRU Int).nshards (.int 42) =
      shardIdx (LRU.new 8 4 : LRU Int).nshards (.int 42) :=
  (c9_router_deterministic (LRU.new 8 4 : LRU Int) (.int 42) (.int 42) rfl).2

/-- C8 counterexample: the claim asserts each shard's local capacity is
**zero** whenever `total_capacity < shard_count`.  With the configuration
`capacity = -3`, `shards = 2` (a negative capacity is an acknowledged
configuration: "If cap less than 1, then the LRU grows indefinitely") we
have `-3 < 2`, yet each shard's local capacity is `-3 / 2 = -1` (Go's
truncating division), not `0`. -/
theorem c8_counterexample :
    (LRU.new (-3) 2 : LRU Int).shards = some [newShard (-1), newShard (-1)] ∧
    ((-1 : Int) ≠ 0) ∧ ((-3 : Int) < 2) := by decide

/-- C8 (amended): construction clamps the shard count to a minimum of 1 and
gives each shard local capacity `total_capacity / shard_count` with
truncating division (the remainder is lost); consequently each shard's
local capacity is `≤ 0` — meaning unbounded — whenever
`total_capacity < shard_count`, and is exactly zero when moreover
`total_capacity ≥ 0`. -/
theorem c8_construction_division (cap ns : Int) :
    (1 ≤ (LRU.new cap ns : LRU Int).nshards) ∧
    ((LRU.new cap ns : LRU Int).nshards = if ns < 1 then 1 else ns) ∧
    ((LRU.new cap ns : LRU Int).shards =
      some (List.replicate ((LRU.new cap ns : LRU Int)).nshards.toNat
        (newShard (Int.tdiv cap (LRU.new cap ns : LRU Int).nshards)))) ∧
    (cap < (LRU.new cap ns : LRU Int).nshards →
      Int.tdiv cap ((LRU.new cap ns : LRU Int).nshards) ≤ 0) ∧
    (0 ≤ cap → cap < (LRU.new cap ns : LRU Int).nshards →
      Int.tdiv cap ((LRU.new cap ns : LRU Int).nshards) = 0) := by
  have hns : (LRU.new cap ns : LRU Int).nshards = if ns < 1 then 1 else ns := rfl
  have h1 : 1 ≤ (LRU.new cap ns : LRU Int).nshards := by
    rw [hns]; split <;> omega
  refine ⟨h1, hns, rfl, ?_, ?_⟩
  · intro hlt
    rcases le_or_lt 0 cap with hc | hc
    · rw [Int.tdiv_eq_zero_of_lt hc hlt]
    · have : cap.tdiv (LRU.new cap ns : LRU Int).nshards =
          -((-cap).tdiv (LRU.new cap ns : LRU Int).nshards) := by
        rw [← Int.neg_tdiv, Int.neg_neg]
      rw [this]
      have := Int.tdiv_nonneg (by omega : (0:Int) ≤ -cap)
        (le_trans zero_le_one h1)
      omega
  · intro hc hlt
    exact Int.tdiv_eq_zero_of_lt hc hlt

/-- C8 witness: a concrete nonnegative capacity smaller than the shard
count gives local capacity 0. -/
theorem c8_construction_division_witness :
    Int.tdiv 3 ((LRU.new 3 5 : LRU Int).nshards) = 0 :=
  (c8_construction_division 3 5).2.2.2.2 (by decide) (by decide)

/-- C10: for a cache built by `New` (shard count clamped to at least 1) and
any key whose encoding succeeds, the computed index
`hash & uint32(nshards - 1)` is strictly below the shard count: a bitwise
AND never exceeds its mask, and the mask — the low 32 bits of
`nshards - 1 ≥ 0` — never exceeds `nshards - 1`.  So shard selection stays
in range even for non-power-of-two shard counts. -/
theorem c10_shard_index_in_range (cap ns : Int) (k : GoKey) (i : Nat)
    (hroute : shardIdx (LRU.new cap ns : LRU Int).nshards k = some i) :
    (i : Int) < (LRU.new cap ns : LRU Int).nshards := by
  have h1 : 1 ≤ (LRU.new cap ns : LRU Int).nshards := by
    show (1 : Int) ≤ (if ns < 1 then 1 else ns)
    split <;> omega
  set m := (LRU.new cap ns : LRU Int).nshards with hm
  unfold shardIdx at hroute
  rcases Option.map_eq_some'.mp hroute with ⟨bs, _, hbs⟩
  have hand : i ≤ uint32ofInt (m - 1) := hbs ▸ Nat.and_le_right
  have hmask : (uint32ofInt (m - 1) : Int) ≤ m - 1 := by
    unfold uint32ofInt
    omega
  have : (i : Int) ≤ (uint32ofInt (m - 1) : Int) := Int.ofNat_le.mpr hand
  omega

/-- C10 witness: a concrete key on a 5-shard (non-power-of-two) cache. -/
theorem c10_shard_index_in_range_witness :
    ((4 : Nat) : Int) < (LRU.new 0 5 : LRU Int).nshards :=
  c10_shard_index_in_range 0 5 (.bytes [7]) 4 (by decide)

end LruSpec

namespace LruSpec

/-- C3: on a shard with positive local capacity, an `add` of a new key that
pushes the count over the capacity removes — within that same `add` —
exactly one entry, the shard's current least-recently-used one (the back of
the order): the resulting order is the new entry consed onto the old order
with its last entry dropped, the count is back to its old value, the
evicted key is gone from both the order and the index, and a subsequent
`get` of the evicted key misses. -/
theorem c3_eviction {V : Type} [DecidableEq V] (s : Shard V) (k : GoKey) (v : V)
    (ek : GoKey) (ev : V)
    (hWF : s.WF) (hcap : 0 < s.cap) (hnew : k ∉ s.idx)
    (hover : s.cap < s.len + 1)
    (hlast : s.order.getLast? = some (ek, ev)) :
    (s.add k v).order = (k, v) :: s.order.dropLast ∧
    (s.add k v).len = s.len ∧
    ek ∉ (s.add k v).idx ∧
    ek ∉ (s.add k v).order.map Prod.fst ∧
    ((s.add k v).get ek).1 = (none, false) := by
  obtain ⟨hperm, hnd, hlen⟩ := hWF
  have hne : s.order ≠ [] := by
    intro h
    rw [h] at hlast
    simp at hlast
  have hgetlast : s.order.getLast hne = (ek, ev) := by
    rw [List.getLast?_eq_getLast _ hne] at hlast
    exact Option.some.inj hlast
  have horder_decomp : s.order = s.order.dropLast ++ [(ek, ev)] := by
    conv_lhs => rw [← List.dropLast_append_getLast hne]
    rw [hgetlast]
  have hkeys : s.order.map Prod.fst = s.order.dropLast.map Prod.fst ++ [ek] := by
    conv_lhs => rw [horder_decomp]
    simp
  have hekfst : ek ∈ s.order.map Prod.fst := by
    rw [hkeys]
    simp
  have hkek : k ≠ ek := by
    intro h
    exact hnew (hperm.mem_iff.mpr (h ▸ hekfst))
  have hidxnd : s.idx.Nodup := hnd.perm hperm.symm
  have hconslast : ((k, v) :: s.order).getLast? = some (ek, ev) := by
    obtain ⟨y, t, hyt⟩ := List.exists_cons_of_ne_nil hne
    rw [hyt] at hlast ⊢
    rw [List.getLast?_cons_cons]
    exact hlast
  have hadd : s.add k v = Shard.removeElement
      { s with idx := k :: s.idx, order := (k, v) :: s.order, len := s.len + 1 }
      (ek, ev) := by
    unfold Shard.add
    rw [if_neg hnew]
    dsimp only
    rw [if_pos ⟨hcap, by omega⟩]
    unfold Shard.removeOldest
    dsimp only
    rw [hconslast]
  have hkeyne : ¬ (keyEq ek ((k : GoKey), v) = true) := by
    simp [keyEq, hkek]
  have horder' : (s.add k v).order = (k, v) :: s.order.dropLast := by
    rw [hadd]
    unfold Shard.removeElement
    dsimp only
    rw [List.eraseP_cons_of_neg hkeyne]
    rw [eraseP_keyEq_getLast s.order (ek, ev) hnd hlast]
  have hidx' : (s.add k v).idx = (k :: s.idx).erase ek := by
    rw [hadd]
    rfl
  have heknotidx : ek ∉ (s.add k v).idx := by
    rw [hidx']
    rw [List.erase_cons_tail (by simp [hkek])]
    intro hmem
    rcases List.mem_cons.mp hmem with h | h
    · exact hkek h.symm
    · exact List.Nodup.not_mem_erase hidxnd h
  refine ⟨horder', ?_, heknotidx, ?_, ?_⟩
  · rw [hadd]
    unfold Shard.removeElement
    dsimp only
    omega
  · rw [horder']
    have hddnd : (s.order.dropLast.map Prod.fst ++ [ek]).Nodup := by
      rw [← hkeys]; exact hnd
    have hdisj := (List.nodup_append.mp hddnd).2.2
    intro hmem
    rw [List.map_cons] at hmem
    rcases List.mem_cons.mp hmem with h | h
    · exact hkek h.symm
    · exact hdisj h (List.mem_singleton.mpr rfl)
  · unfold Shard.get
    rw [if_neg heknotidx]

end LruSpec

namespace LruSpec

/-- C3 witness: a concrete full shard of capacity 1; adding a new key
evicts the old one, which a subsequent `get` misses. -/
theorem c3_eviction_witness :
    ((shardFull.add (.int 1) 6).get (.int 0)).1 = (none, false) :=
  (c3_eviction shardFull (.int 1) 6 (.int 0) 5 (by decide) (by decide) (by decide)
    (by decide) (by decide)).2.2.2.2

end LruSpec

namespace LruSpec

/-- Unfolding: `Len` on a cache whose shard slice is consistent with its
shard count is the sum of the shard counters. -/
theorem len_shards {V : Type} (l : LRU V) (ss : List (Shard V))
    (hss : l.shards = some ss) (hn : l.nshards = (ss.length : Int)) :
    l.Len = some ((ss.map Shard.len).sum) := by
  unfold LRU.Len
  rw [lazyInit_eq_self hss]
  dsimp only
  rw [hss]
  dsimp only
  rw [hn, Int.toNat_natCast]
  rw [if_pos (le_refl _), List.take_length]

/-- Unfolding: `Add` on a routed in-range key replaces the routed shard by
the result of the shard-level `add`. -/
theorem add_shards {V : Type} [DecidableEq V] (l : LRU V) (ss : List (Shard V))
    (k : GoKey) (v : V) (i : Nat)
    (hss : l.shards = some ss) (hroute : shardIdx l.nshards k = some i)
    (hi : i < ss.length) :
    l.Add k v = some { l with shards := some (ss.set i ((ss.get ⟨i, hi⟩).add k v)) } := by
  unfold LRU.Add
  rw [lazyInit_eq_self hss]
  dsimp only
  rw [hroute, hss]
  dsimp only
  rw [dif_pos hi]

/-- Unfolding: `Get` on a routed in-range key returns the shard-level `get`
result and writes the mutated shard back. -/
theorem get_shards {V : Type} [DecidableEq V] (l : LRU V) (ss : List (Shard V))
    (k : GoKey) (i : Nat)
    (hss : l.shards = some ss) (hroute : shardIdx l.nshards k = some i)
    (hi : i < ss.length) :
    l.Get k = some (((ss.get ⟨i, hi⟩).get k).1,
      { l with shards := some (ss.set i (((ss.get ⟨i, hi⟩).get k).2)) }) := by
  unfold LRU.Get
  rw [hroute, hss]
  dsimp only
  rw [dif_pos hi]

/-- Unfolding: `Remove` on a routed in-range key replaces the routed shard
by the result of the shard-level `removeKey`. -/
theorem remove_shards {V : Type} [DecidableEq V] (l : LRU V) (ss : List (Shard V))
    (k : GoKey) (i : Nat)
    (hss : l.shards = some ss) (hroute : shardIdx l.nshards k = some i)
    (hi : i < ss.length) :
    l.Remove k = some { l with shards := some (ss.set i ((ss.get ⟨i, hi⟩).removeKey k)) } := by
  unfold LRU.Remove
  rw [hroute, hss]
  dsimp only
  rw [dif_pos hi]

/-- Unfolding: the order observer reads the routed shard. -/
theorem shardOrder_eq {V : Type} (l : LRU V) (ss : List (Shard V))
    (hss : l.shards = some ss) (i : Nat) (hi : i < ss.length) :
    l.shardOrder i = (ss.get ⟨i, hi⟩).order := by
  unfold LRU.shardOrder
  rw [hss]
  dsimp only
  rw [List.getElem?_eq_getElem hi, List.get_eq_getElem]
  rfl

/-- Unfolding: the key-set observer reads the routed shard. -/
theorem shardKeys_eq {V : Type} (l : LRU V) (ss : List (Shard V))
    (hss : l.shards = some ss) (i : Nat) (hi : i < ss.length) :
    l.shardKeys i = (ss.get ⟨i, hi⟩).idx := by
  unfold LRU.shardKeys
  rw [hss]
  dsimp only
  rw [List.getElem?_eq_getElem hi, List.get_eq_getElem]
  rfl

/-- Unfolding: `shard.add` on a present key. -/
theorem shard_add_hit {V : Type} [DecidableEq V] (s : Shard V) (k : GoKey) (v : V)
    (hmem : k ∈ s.idx) :
    s.add k v = { s with order := (k, v) :: s.order.eraseP (keyEq k) } := by
  unfold Shard.add
  rw [if_pos hmem]

/-- Unfolding: `shard.get` on a present key whose element is located. -/
theorem shard_get_hit {V : Type} [DecidableEq V] (s : Shard V) (k : GoKey) (e : GoKey × V)
    (hmem : k ∈ s.idx) (hfind : s.order.find? (keyEq k) = some e) :
    s.get k = ((some e.2, true), { s with order := e :: s.order.eraseP (keyEq k) }) := by
  unfold Shard.get
  rw [if_pos hmem, hfind]

/-- Unfolding: `shard.get` on an absent key is a pure miss. -/
theorem shard_get_miss {V : Type} [DecidableEq V] (s : Shard V) (k : GoKey)
    (hmem : k ∉ s.idx) :
    s.get k = ((none, false), s) := by
  unfold Shard.get
  rw [if_neg hmem]

/-- Unfolding: `shard.removeKey` on a present key removes the located
element. -/
theorem shard_removeKey_hit {V : Type} [DecidableEq V] (s : Shard V) (k : GoKey)
    (e : GoKey × V) (hmem : k ∈ s.idx) (hfind : s.order.find? (keyEq k) = some e) :
    s.removeKey k = s.removeElement e := by
  unfold Shard.removeKey
  rw [if_pos hmem, hfind]

/-- Unfolding: `shard.removeKey` on an absent key does nothing. -/
theorem shard_removeKey_miss {V : Type} [DecidableEq V] (s : Shard V) (k : GoKey)
    (hmem : k ∉ s.idx) :
    s.removeKey k = s := by
  unfold Shard.removeKey
  rw [if_neg hmem]

end LruSpec

namespace LruSpec

/-- C5: on a cache whose routed shard already contains the key, `Add`
replaces the stored value, moves the key's entry to the most-recently-used
(front) position of its shard's order, leaves the shard's index and `Len()`
unchanged, and the subsequent `Get` of the key returns the new value with
`true`. -/
theorem c5_add_existing {V : Type} [DecidableEq V]
    (l : LRU V) (ss : List (Shard V)) (k : GoKey) (v' : V) (i : Nat)
    (hss : l.shards = some ss) (hn : l.nshards = (ss.length : Int))
    (hroute : shardIdx l.nshards k = some i) (hi : i < ss.length)
    (hmem : k ∈ (ss.get ⟨i, hi⟩).idx) :
    (l.Add k v').bind LRU.Len = l.Len ∧
    (l.Add k v').map (fun l2 => (l2.shardOrder i).head?) = some (some (k, v')) ∧
    ((l.Add k v').bind (fun l2 => l2.Get k)).map Prod.fst = some (some v', true) ∧
    (l.Add k v').map (fun l2 => l2.shardKeys i) = some (ss.get ⟨i, hi⟩).idx := by
  have hAdd := add_shards l ss k v' i hss hroute hi
  have hsadd := shard_add_hit (ss.get ⟨i, hi⟩) k v' hmem
  have hlen' : ((ss.get ⟨i, hi⟩).add k v').len = (ss.get ⟨i, hi⟩).len := by
    rw [hsadd]
  have hidx' : ((ss.get ⟨i, hi⟩).add k v').idx = (ss.get ⟨i, hi⟩).idx := by
    rw [hsadd]
  have hord' : ((ss.get ⟨i, hi⟩).add k v').order =
      (k, v') :: (ss.get ⟨i, hi⟩).order.eraseP (keyEq k) := by
    rw [hsadd]
  have hi2 : i < (ss.set i ((ss.get ⟨i, hi⟩).add k v')).length := by
    rw [List.length_set]; exact hi
  have hget2 : (ss.set i ((ss.get ⟨i, hi⟩).add k v')).get ⟨i, hi2⟩ =
      (ss.get ⟨i, hi⟩).add k v' := by
    rw [List.get_eq_getElem]
    exact List.getElem_set_self _
  refine ⟨?_, ?_, ?_, ?_⟩
  · rw [hAdd, Option.some_bind]
    rw [len_shards _ (ss.set i ((ss.get ⟨i, hi⟩).add k v')) rfl
        (by rw [List.length_set]; exact hn)]
    rw [len_shards l ss hss hn]
    rw [sum_map_set Shard.len ss i _ hi, hlen', Int.sub_add_cancel]
  · rw [hAdd, Option.map_some']
    rw [shardOrder_eq _ (ss.set i ((ss.get ⟨i, hi⟩).add k v')) rfl i hi2]
    rw [hget2, hord']
    rfl
  · rw [hAdd, Option.some_bind]
    rw [get_shards { l with shards := some (ss.set i ((ss.get ⟨i, hi⟩).add k v')) }
        (ss.set i ((ss.get ⟨i, hi⟩).add k v')) k i rfl hroute hi2]
    rw [Option.map_some']
    have hmem2 : k ∈ ((ss.set i ((ss.get ⟨i, hi⟩).add k v')).get ⟨i, hi2⟩).idx := by
      rw [hget2, hidx']
      exact hmem
    have hfind2 : ((ss.set i ((ss.get ⟨i, hi⟩).add k v')).get ⟨i, hi2⟩).order.find?
        (keyEq k) = some (k, v') := by
      rw [hget2, hord']
      exact List.find?_cons_of_pos _ (by simp [keyEq])
    rw [shard_get_hit _ k (k, v') hmem2 hfind2]
  · rw [hAdd, Option.map_some']
    rw [shardKeys_eq _ (ss.set i ((ss.get ⟨i, hi⟩).add k v')) rfl i hi2]
    rw [hget2, hidx']

/-- C5 witness: a concrete one-shard cache holding the key `[]byte{}` with
value 7; re-adding it with value 9 makes `Get` return `(9, true)`. -/
theorem c5_add_existing_witness :
    ((lruOne.Add (.bytes []) 9).bind (fun l2 => l2.Get (.bytes []))).map Prod.fst =
      some (some 9, true) :=
  (c5_add_existing lruOne
    [{ cap := 0, len := 1, idx := [.bytes []], order := [(.bytes [], 7)] }]
    (.bytes []) 9 0 rfl (by decide) (by decide) (by decide) (by decide)).2.2.1

end LruSpec

namespace LruSpec

/-- C6: `Get` on a present key moves that key's entry to the
most-recently-used (front) position within its shard — the shard's order
after the call is a permutation of the order before, with the entry now at
the head — returns the stored value with `true`, and changes neither the
shard's index nor `Len()`; `Get` on an absent key returns the zero value
(`none`) with `false` and leaves the entire cache state unchanged. -/
theorem c6_get {V : Type} [DecidableEq V]
    (l : LRU V) (ss : List (Shard V)) (k : GoKey) (i : Nat)
    (hss : l.shards = some ss) (hn : l.nshards = (ss.length : Int))
    (hroute : shardIdx l.nshards k = some i) (hi : i < ss.length) :
    (∀ v : V, (ss.get ⟨i, hi⟩).order.find? (keyEq k) = some (k, v) →
      k ∈ (ss.get ⟨i, hi⟩).idx →
      (l.Get k).map Prod.fst = some (some v, true) ∧
      (l.Get k).map (fun r => (r.2.shardOrder i).head?) = some (some (k, v)) ∧
      (((l.Get k).map (fun r => r.2.shardOrder i)).getD []).Perm
        (ss.get ⟨i, hi⟩).order ∧
      (l.Get k).map (fun r => r.2.shardKeys i) = some (ss.get ⟨i, hi⟩).idx ∧
      (l.Get k).bind (fun r => r.2.Len) = l.Len) ∧
    (k ∉ (ss.get ⟨i, hi⟩).idx → l.Get k = some ((none, false), l)) := by
  have hGet := get_shards l ss k i hss hroute hi
  constructor
  · intro v hfind hmem
    have hhit := shard_get_hit (ss.get ⟨i, hi⟩) k (k, v) hmem hfind
    have hi2 : i < (ss.set i (((ss.get ⟨i, hi⟩).get k).2)).length := by
      rw [List.length_set]; exact hi
    have hget2 : (ss.set i (((ss.get ⟨i, hi⟩).get k).2)).get ⟨i, hi2⟩ =
        ((ss.get ⟨i, hi⟩).get k).2 := by
      rw [List.get_eq_getElem]
      exact List.getElem_set_self _
    have hs2ord : (((ss.get ⟨i, hi⟩).get k).2).order =
        (k, v) :: (ss.get ⟨i, hi⟩).order.eraseP (keyEq k) := by
      rw [hhit]
    have hs2idx : (((ss.get ⟨i, hi⟩).get k).2).idx = (ss.get ⟨i, hi⟩).idx := by
      rw [hhit]
    have hs2len : (((ss.get ⟨i, hi⟩).get k).2).len = (ss.get ⟨i, hi⟩).len := by
      rw [hhit]
    refine ⟨?_, ?_, ?_, ?_, ?_⟩
    · rw [hGet, Option.map_some']
      rw [show (((ss.get ⟨i, hi⟩).get k).1) = (some v, true) by rw [hhit]]
    · rw [hGet, Option.map_some']
      rw [shardOrder_eq { l with shards := some (ss.set i (((ss.get ⟨i, hi⟩).get k).2)) }
          (ss.set i (((ss.get ⟨i, hi⟩).get k).2)) rfl i hi2]
      rw [hget2, hs2ord]
      rfl
    · rw [hGet, Option.map_some']
      rw [shardOrder_eq { l with shards := some (ss.set i (((ss.get ⟨i, hi⟩).get k).2)) }
          (ss.set i (((ss.get ⟨i, hi⟩).get k).2)) rfl i hi2]
      rw [hget2, hs2ord]
      show ((k, v) :: (ss.get ⟨i, hi⟩).order.eraseP (keyEq k)).Perm (ss.get ⟨i, hi⟩).order
      exact (perm_cons_eraseP_of_find? (keyEq k) (ss.get ⟨i, hi⟩).order (k, v) hfind).symm
    · rw [hGet, Option.map_some']
      rw [shardKeys_eq { l with shards := some (ss.set i (((ss.get ⟨i, hi⟩).get k).2)) }
          (ss.set i (((ss.get ⟨i, hi⟩).get k).2)) rfl i hi2]
      rw [hget2, hs2idx]
    · rw [hGet, Option.some_bind]
      rw [len_shards { l with shards := some (ss.set i (((ss.get ⟨i, hi⟩).get k).2)) }
          (ss.set i (((ss.get ⟨i, hi⟩).get k).2)) rfl
          (by rw [List.length_set]; exact hn)]
      rw [len_shards l ss hss hn]
      rw [sum_map_set Shard.len ss i _ hi, hs2len, Int.sub_add_cancel]
  · intro hmem
    rw [hGet, shard_get_miss (ss.get ⟨i, hi⟩) k hmem]
    dsimp only
    rw [set_get_self ss i hi]
    rw [lru_eta l hss]

/-- C6 witness: on the concrete one-shard cache, `Get` of the present key
returns `(7, true)`, and `Get` of an absent key returns `(none, false)`
with the cache unchanged. -/
theorem c6_get_witness :
    (lruOne.Get (.bytes [])).map Prod.fst = some (some 7, true) ∧
    lruOne.Get (.bytes [2]) = some ((none, false), lruOne) :=
  ⟨((c6_get lruOne [{ cap := 0, len := 1, idx := [.bytes []], order := [(.bytes [], 7)] }]
      (.bytes []) 0 rfl (by decide) (by decide) (by decide)).1 7 (by decide) (by decide)).1,
   (c6_get lruOne [{ cap := 0, len := 1, idx := [.bytes []], order := [(.bytes [], 7)] }]
      (.bytes [2]) 0 rfl (by decide) (by decide) (by decide)).2 (by decide)⟩

end LruSpec

namespace LruSpec

/-- C7: `Remove` on a present key deletes it from both the order and the
index — the key no longer occurs in either — decrements `Len()` by exactly
one, and a subsequent `Get` of the key misses; `Remove` on an absent key
leaves the cache completely unchanged (a no-op, not an error). -/
theorem c7_remove {V : Type} [DecidableEq V]
    (l : LRU V) (ss : List (Shard V)) (k : GoKey) (i : Nat)
    (hss : l.shards = some ss) (hn : l.nshards = (ss.length : Int))
    (hroute : shardIdx l.nshards k = some i) (hi : i < ss.length)
    (hWF : (ss.get ⟨i, hi⟩).WF) :
    (∀ v : V, (ss.get ⟨i, hi⟩).order.find? (keyEq k) = some (k, v) →
      k ∈ (ss.get ⟨i, hi⟩).idx →
      (l.Remove k).map (fun l2 => decide (k ∈ l2.shardKeys i)) = some false ∧
      (l.Remove k).map
        (fun l2 => decide (k ∈ (l2.shardOrder i).map Prod.fst)) = some false ∧
      (l.Remove k).bind LRU.Len = (l.Len).map (fun n => n - 1) ∧
      ((l.Remove k).bind (fun l2 => l2.Get k)).map Prod.fst = some (none, false)) ∧
    (k ∉ (ss.get ⟨i, hi⟩).idx → l.Remove k = some l) := by
  obtain ⟨hperm, hnd, hlen⟩ := hWF
  have hRem := remove_shards l ss k i hss hroute hi
  constructor
  · intro v hfind hmem
    have hhit := shard_removeKey_hit (ss.get ⟨i, hi⟩) k (k, v) hmem hfind
    have hs2idx : ((ss.get ⟨i, hi⟩).removeKey k).idx = (ss.get ⟨i, hi⟩).idx.erase k := by
      rw [hhit]
      rfl
    have hs2ord : ((ss.get ⟨i, hi⟩).removeKey k).order =
        (ss.get ⟨i, hi⟩).order.eraseP (keyEq k) := by
      rw [hhit]
      rfl
    have hs2len : ((ss.get ⟨i, hi⟩).removeKey k).len = (ss.get ⟨i, hi⟩).len - 1 := by
      rw [hhit]
      rfl
    have hidxnd : (ss.get ⟨i, hi⟩).idx.Nodup := hnd.perm hperm.symm
    have hknotidx : k ∉ ((ss.get ⟨i, hi⟩).removeKey k).idx := by
      rw [hs2idx]
      exact List.Nodup.not_mem_erase hidxnd
    have hi2 : i < (ss.set i ((ss.get ⟨i, hi⟩).removeKey k)).length := by
      rw [List.length_set]; exact hi
    have hget2 : (ss.set i ((ss.get ⟨i, hi⟩).removeKey k)).get ⟨i, hi2⟩ =
        (ss.get ⟨i, hi⟩).removeKey k := by
      rw [List.get_eq_getElem]
      exact List.getElem_set_self _
    refine ⟨?_, ?_, ?_, ?_⟩
    · rw [hRem, Option.map_some']
      rw [shardKeys_eq { l with shards := some (ss.set i ((ss.get ⟨i, hi⟩).removeKey k)) }
          (ss.set i ((ss.get ⟨i, hi⟩).removeKey k)) rfl i hi2]
      rw [hget2]
      rw [decide_eq_false hknotidx]
    · rw [hRem, Option.map_some']
      rw [shardOrder_eq { l with shards := some (ss.set i ((ss.get ⟨i, hi⟩).removeKey k)) }
          (ss.set i ((ss.get ⟨i, hi⟩).removeKey k)) rfl i hi2]
      rw [hget2, hs2ord]
      rw [decide_eq_false (not_mem_map_fst_eraseP_keyEq k (ss.get ⟨i, hi⟩).order hnd)]
    · rw [hRem, Option.some_bind]
      rw [len_shards { l with shards := some (ss.set i ((ss.get ⟨i, hi⟩).removeKey k)) }
          (ss.set i ((ss.get ⟨i, hi⟩).removeKey k)) rfl
          (by rw [List.length_set]; exact hn)]
      rw [len_shards l ss hss hn, Option.map_some']
      rw [sum_map_set Shard.len ss i _ hi, hs2len]
      congr 1
      omega
    · rw [hRem, Option.some_bind]
      rw [get_shards { l with shards := some (ss.set i ((ss.get ⟨i, hi⟩).removeKey k)) }
          (ss.set i ((ss.get ⟨i, hi⟩).removeKey k)) k i rfl hroute hi2]
      rw [Option.map_some']
      rw [hget2, shard_get_miss ((ss.get ⟨i, hi⟩).removeKey k) k hknotidx]
  · intro hmem
    rw [hRem, shard_removeKey_miss (ss.get ⟨i, hi⟩) k hmem]
    rw [set_get_self ss i hi]
    rw [lru_eta l hss]

/-- C7 witness: removing the present key from the concrete one-shard cache
drops `Len()` to 0 and a subsequent `Get` misses; removing an absent key
returns the cache unchanged. -/
theorem c7_remove_witness :
    ((lruOne.Remove (.bytes [])).bind (fun l2 => l2.Get (.bytes []))).map Prod.fst =
      some (none, false) ∧
    lruOne.Remove (.bytes [2]) = some lruOne :=
  ⟨((c7_remove lruOne [{ cap := 0, len := 1, idx := [.bytes []], order := [(.bytes [], 7)] }]
      (.bytes []) 0 rfl (by decide) (by decide) (by decide) (by decide)).1 7
        (by decide) (by decide)).2.2.2,
   (c7_remove lruOne [{ cap := 0, len := 1, idx := [.bytes []], order := [(.bytes [], 7)] }]
      (.bytes [2]) 0 rfl (by decide) (by decide) (by decide) (by decide)).2 (by decide)⟩

end LruSpec
